import Mathlib

/-!
Verification development for the `blargh` static-site build tool.

The embedding follows `src/interpreter.ts`, `src/context.ts` and
`src/transform.ts`.  Strings are modelled as `List Char`.  The JavaScript
regular expression built in `tokenize` (`(openTag[\s\S]*?closeTag)` used with
`String.split`) is modelled by a literal, non-greedy region scanner: fidelity
holds for delimiter strings that contain no regex metacharacters (the default
`<%` / `%>` pair is such a string).  The regex engine picks the earliest open
occurrence that admits a close occurrence at or after its end; if the earliest
open occurrence admits no close then no later one does either, so scanning for
the earliest open first is equivalent.
-/

namespace Blargh

/-- Strings of the modelled program are lists of characters. -/
abbrev Str := List Char

/-- Earliest index at which `pat` occurs in `s` (JavaScript `String.indexOf` /
the leftmost regex match position for a literal pattern). -/
def findSubstr (pat : Str) : Str → Option Nat
  | [] => if pat.isPrefixOf ([] : Str) then some 0 else none
  | c :: rest =>
    if pat.isPrefixOf (c :: rest) then some 0
    else (findSubstr pat rest).map (· + 1)

/-- Model of `String.prototype.substring(a, b)`: clamps both indices to the string and
swaps them when `a > b`. -/
def jsSubstring (s : Str) (a b : Nat) : Str :=
  (s.take (max a b)).drop (min a b)

/-- Token type of `src/interpreter.ts`: `"expression" | "content"`. -/
inductive TokenType where
  | expression
  | content
deriving DecidableEq, Repr

/-- A token, either a JavaScript expression, or a content text
(`src/interpreter.ts`, line 4). -/
structure Token where
  type : TokenType
  text : Str
deriving DecidableEq, Repr

/-- One step of the global regex scan for `(open[\s\S]*?close)`: the earliest
open occurrence, then the earliest close occurrence at or after its end.
Returns `(pre, inner, rest)` with `s = pre ++ op ++ inner ++ cl ++ rest`.
Empty delimiters would make the JS regex behave differently (empty matches);
they are outside the modelled range and yield no match here. -/
def findRegionMatch (op cl s : Str) : Option (Str × Str × Str) :=
  if op = [] ∨ cl = [] then none
  else
    match findSubstr op s with
    | none => none
    | some p =>
      let after := s.drop (p + op.length)
      match findSubstr cl after with
      | none => none
      | some q => some (s.take p, after.take q, after.drop (q + cl.length))

theorem isPrefixOf_iff {l₁ l₂ : Str} : l₁.isPrefixOf l₂ = true ↔ l₁ <+: l₂ :=
  List.isPrefixOf_iff_prefix

theorem bool_eq_false {b : Bool} (h : ¬ b = true) : b = false := by
  cases b <;> simp_all

theorem findSubstr_some {pat s : Str} {p : Nat} (h : findSubstr pat s = some p) :
    pat.isPrefixOf (s.drop p) = true := by
  induction s generalizing p with
  | nil =>
    unfold findSubstr at h
    split at h
    · rename_i hpre
      simp only [Option.some.injEq] at h
      subst h
      simpa using hpre
    · simp at h
  | cons c rest ih =>
    unfold findSubstr at h
    split at h
    · rename_i hpre
      simp only [Option.some.injEq] at h
      subst h
      simpa using hpre
    · rcases Option.map_eq_some'.mp h with ⟨q, hq, rfl⟩
      simpa using ih hq

theorem findSubstr_min {pat s : Str} {p : Nat} (h : findSubstr pat s = some p)
    (q : Nat) (hq : q < p) : pat.isPrefixOf (s.drop q) = false := by
  induction s generalizing p q with
  | nil =>
    unfold findSubstr at h
    split at h
    · simp only [Option.some.injEq] at h
      omega
    · simp at h
  | cons c rest ih =>
    unfold findSubstr at h
    split at h
    · simp only [Option.some.injEq] at h
      omega
    · rename_i hpre
      rcases Option.map_eq_some'.mp h with ⟨r, hr, rfl⟩
      cases q with
      | zero =>
        simp only [List.drop_zero]
        exact bool_eq_false hpre
      | succ q' =>
        simpa using ih hr q' (by omega)

theorem findSubstr_decomp {pat s : Str} {p : Nat} (h : findSubstr pat s = some p) :
    s = s.take p ++ pat ++ s.drop (p + pat.length) := by
  obtain ⟨t, ht⟩ := isPrefixOf_iff.mp (findSubstr_some h)
  have hT : s.drop (p + pat.length) = t := by
    have h2 : (s.drop p).drop pat.length = t := by
      rw [← ht]; simp
    rw [List.drop_drop] at h2
    exact h2
  have key : s.take p ++ (pat ++ s.drop (p + pat.length)) = s := by
    rw [hT, ht, List.take_append_drop]
  rw [List.append_assoc, key]

theorem findSubstr_none_not_pre {pat s : Str} (h : findSubstr pat s = none) :
    pat.isPrefixOf s = false := by
  cases s with
  | nil =>
    unfold findSubstr at h
    split at h
    · simp at h
    · rename_i hpre
      exact bool_eq_false hpre
  | cons c rest =>
    unfold findSubstr at h
    split at h
    · simp at h
    · rename_i hpre
      exact bool_eq_false hpre

theorem findRegionMatch_rest_lt {op cl s pre inner rest : Str}
    (h : findRegionMatch op cl s = some (pre, inner, rest)) :
    rest.length < s.length := by
  unfold findRegionMatch at h
  split at h
  · exact absurd h (by simp)
  · rename_i hne
    push_neg at hne
    cases hp : findSubstr op s with
    | none => rw [hp] at h; exact absurd h (by simp)
    | some p =>
      rw [hp] at h
      cases hq : findSubstr cl (s.drop (p + op.length)) with
      | none => simp only [hq] at h; exact absurd h (by simp)
      | some q =>
        simp only [hq, Option.some.injEq, Prod.mk.injEq] at h
        obtain ⟨-, -, hrest⟩ := h
        have hop : op.length ≠ 0 := by
          simpa [List.length_eq_zero] using hne.1
        have hple : p + op.length ≤ s.length := by
          have := isPrefixOf_iff.mp (findSubstr_some hp)
          have hlen := this.length_le
          simp only [List.length_drop] at hlen
          omega
        subst hrest
        simp only [List.drop_drop, List.length_drop]
        omega

/-- The split of the input along the global regex, keeping the captured
delimiter-to-delimiter matches (JavaScript `input.split(regex)` with a
capturing group).  Empty parts are produced (and later dropped by the
classifier), matching the JS behaviour. -/
def splitParts (op cl s : Str) : List Str :=
  match h : findRegionMatch op cl s with
  | none => [s]
  | some (pre, inner, rest) => pre :: (op ++ inner ++ cl) :: splitParts op cl rest
termination_by s.length
decreasing_by exact findRegionMatch_rest_lt h

/-- Classification of one split part (`src/interpreter.ts`, lines 10-16):
parts framed by the delimiters become expression tokens with the delimiters
stripped via `substring`; other non-empty parts become content tokens; empty
parts are dropped. -/
def classifyPart (op cl part : Str) : Option Token :=
  if op.isPrefixOf part && cl.isSuffixOf part then
    some ⟨.expression, jsSubstring part op.length (part.length - cl.length)⟩
  else if part ≠ [] then some ⟨.content, part⟩
  else none

/-- Model of `tokenize(input, openTag, closeTag)` of `src/interpreter.ts`, lines 6-19. -/
def tokenize (input op cl : Str) : List Token :=
  (splitParts op cl input).filterMap (classifyPart op cl)

/-- A single global character replacement, `text.replace(/c/g, repl)` for a
single-character pattern. -/
def replaceChar (c : Char) (repl : Str) : Str → Str
  | [] => []
  | x :: rest => (if x = c then repl else [x]) ++ replaceChar c repl rest

/-- Model of `escapeString` of `src/interpreter.ts`, lines 28-30: four sequential global
replacements — backslash, double quote, newline, carriage return, in that
order (innermost application first). -/
def escapeString (text : Str) : Str :=
  replaceChar '\r' ['\\', 'r']
    (replaceChar '\n' ['\\', 'n']
      (replaceChar '"' ['\\', '"']
        (replaceChar '\\' ['\\', '\\'] text)))

/-- The per-character expansion that the four sequential passes of
`escapeString` amount to (proved below, `escapeString_cons`). -/
def escOne (c : Char) : Str :=
  if c = '\\' then ['\\', '\\']
  else if c = '"' then ['\\', '"']
  else if c = '\n' then ['\\', 'n']
  else if c = '\r' then ['\\', 'r']
  else [c]

/-- JavaScript escape-sequence value of `\c` inside a double-quoted string
literal.  Hex, unicode and legacy octal escapes and line continuations are
outside the modelled range (`none`); any other character maps to itself
(this covers `\\`, `\"`, `\'`, `\/`). -/
def decodeEsc (c : Char) : Option Char :=
  if c = 'n' then some '\n'
  else if c = 'r' then some '\r'
  else if c = 't' then some '\t'
  else if c = 'b' then some (Char.ofNat 8)
  else if c = 'f' then some (Char.ofNat 12)
  else if c = 'v' then some (Char.ofNat 11)
  else if c = 'x' ∨ c = 'u' ∨ ('0' ≤ c ∧ c ≤ '9') ∨ c = '\n' ∨ c = '\r' then none
  else some c

/-- The JavaScript lexer's reading of the body of a double-quoted string
literal: escape sequences are decoded; a raw double quote would terminate the
literal early and a raw newline or carriage return is a syntax error, so both
make the body ill-formed (`none`), as does a trailing lone backslash. -/
def decodeJs : Str → Option Str
  | [] => some []
  | ['\\'] => none
  | '\\' :: c :: rest =>
    match decodeEsc c with
    | none => none
    | some d => (decodeJs rest).map (d :: ·)
  | '"' :: _ => none
  | '\n' :: _ => none
  | '\r' :: _ => none
  | c :: rest => (decodeJs rest).map (c :: ·)

def isWsChar (c : Char) : Bool := c = ' ' || c = '\t' || c = '\n' || c = '\r'

def trimWs (s : Str) : Str :=
  ((s.dropWhile isWsChar).reverse.dropWhile isWsChar).reverse

/-- Evaluation of the JavaScript expression spliced into
`__out += await (<expr>)`, for the expression shape the model covers: a
double-quoted string literal (possibly surrounded by whitespace).  `await` of
a string resolves to the string itself.  Any other expression is outside the
modelled range. -/
def evalJsExpr (code : Str) : Option Str :=
  match trimWs code with
  | '"' :: rest =>
    match rest.getLast? with
    | some '"' => decodeJs rest.dropLast
    | _ => none
  | _ => none

/-- The statements emitted by `compile` (`src/interpreter.ts`, lines 34-50),
one per token. -/
inductive Stmt where
  /-- Statement `__out += "body";` emitted for a content token (body already escaped). -/
  | lit (body : Str)
  /-- Statement `__out += await (code)` emitted for an expression token starting with `=`. -/
  | exprAppend (code : Str)
  /-- a statement token spliced verbatim. -/
  | raw (code : Str)
deriving DecidableEq, Repr

/-- The token-by-token statement list built by the loop of `compile`. -/
def compileStmts (input op cl : Str) : List Stmt :=
  (tokenize input op cl).map fun t =>
    match t.type with
    | .expression =>
      if ['='].isPrefixOf t.text then .exprAppend (t.text.drop 1)
      else .raw t.text
    | .content => .lit (escapeString t.text)

def prologueText : Str := "(async () => \x7b\nlet __out = \"\";\n".data

def epilogueText : Str := "\n\nreturn __out;\n\x7d)()".data

/-- The exact program text contributed by one emitted statement. -/
def stmtText : Stmt → Str
  | .lit body => "\n__out += \"".data ++ body ++ "\";".data
  | .exprAppend code => "\n__out += await (".data ++ code ++ ")".data
  | .raw code => '\n' :: code

/-- Model of `compile(input, openTag, closeTag)` of `src/interpreter.ts`: the program
text, prologue plus one statement per token plus epilogue. -/
def compile (input op cl : Str) : Str :=
  prologueText ++ ((compileStmts input op cl).map stmtText).flatten ++ epilogueText

/-- Semantics of the emitted program (what `interpret` makes the host engine
do with it): start from an empty buffer `__out`, execute the statements in
order, return the buffer.  Literal appends append the decoded string literal;
expression appends evaluate the spliced expression, await it and append the
result in statement order.  A verbatim author statement is arbitrary host code
and therefore outside the modelled range (`none`). -/
def runStmts : List Stmt → Str → Option Str
  | [], out => some out
  | .lit body :: rest, out =>
    match decodeJs body with
    | none => none
    | some t => runStmts rest (out ++ t)
  | .exprAppend code :: rest, out =>
    match evalJsExpr code with
    | none => none
    | some v => runStmts rest (out ++ v)
  | .raw _ :: _, _ => none

def runProgram (stmts : List Stmt) : Option Str :=
  runStmts stmts []

theorem replaceChar_append (c : Char) (r a b : Str) :
    replaceChar c r (a ++ b) = replaceChar c r a ++ replaceChar c r b := by
  induction a with
  | nil => rfl
  | cons x rest ih => simp [replaceChar, ih]

theorem escapeString_nil : escapeString [] = [] := rfl

theorem escapeString_cons (c : Char) (t : Str) :
    escapeString (c :: t) = escOne c ++ escapeString t := by
  unfold escapeString escOne
  by_cases h1 : c = '\\'
  · subst h1
    simp +decide [replaceChar, replaceChar_append]
  · by_cases h2 : c = '"'
    · subst h2
      simp +decide [replaceChar, replaceChar_append]
    · by_cases h3 : c = '\n'
      · subst h3
        simp +decide [replaceChar, replaceChar_append]
      · by_cases h4 : c = '\r'
        · subst h4
          simp +decide [replaceChar, replaceChar_append]
        · simp [replaceChar, replaceChar_append, h1, h2, h3, h4]

/-- The escaping performed by `compile` on literal segments round-trips
through the JavaScript string-literal lexer. -/
theorem decodeJs_escapeString (t : Str) : decodeJs (escapeString t) = some t := by
  induction t with
  | nil => rfl
  | cons c t ih =>
    rw [escapeString_cons]
    by_cases h1 : c = '\\'
    · subst h1
      simp +decide [escOne, decodeJs, decodeEsc, ih]
    · by_cases h2 : c = '"'
      · subst h2
        simp +decide [escOne, decodeJs, decodeEsc, ih]
      · by_cases h3 : c = '\n'
        · subst h3
          simp +decide [escOne, decodeJs, decodeEsc, ih]
        · by_cases h4 : c = '\r'
          · subst h4
            simp +decide [escOne, decodeJs, decodeEsc, ih]
          · simp [escOne, h1, h2, h3, h4, decodeJs, ih]

theorem splitParts_eq_none {op cl s : Str} (h : findRegionMatch op cl s = none) :
    splitParts op cl s = [s] := by
  unfold splitParts
  split
  · rfl
  · rename_i pre inner rest h2
    rw [h] at h2
    exact absurd h2 (by simp)

theorem splitParts_eq_some {op cl s pre inner rest : Str}
    (h : findRegionMatch op cl s = some (pre, inner, rest)) :
    splitParts op cl s = pre :: (op ++ inner ++ cl) :: splitParts op cl rest := by
  unfold splitParts
  split
  · rename_i h2
    rw [h] at h2
    exact absurd h2 (by simp)
  · rename_i pre' inner' rest' h2
    rw [h] at h2
    simp only [Option.some.injEq, Prod.mk.injEq] at h2
    obtain ⟨rfl, rfl, rfl⟩ := h2
    rw [← splitParts.eq_def]

/-- Structure of one region match: the input decomposes around it, the prefix
part contains no open-delimiter occurrence at its start, and the remainder is
a suffix of the input. -/
theorem findRegionMatch_spec {op cl s pre inner rest : Str}
    (h : findRegionMatch op cl s = some (pre, inner, rest)) :
    s = pre ++ op ++ inner ++ cl ++ rest ∧
      op.isPrefixOf pre = false ∧ rest <:+ s := by
  unfold findRegionMatch at h
  split at h
  · exact absurd h (by simp)
  · rename_i hne
    push_neg at hne
    cases hp : findSubstr op s with
    | none => rw [hp] at h; exact absurd h (by simp)
    | some p =>
      rw [hp] at h
      cases hq : findSubstr cl (s.drop (p + op.length)) with
      | none => simp only [hq] at h; exact absurd h (by simp)
      | some q =>
        simp only [hq, Option.some.injEq, Prod.mk.injEq] at h
        obtain ⟨hpre, hinner, hrest⟩ := h
        subst hpre hinner hrest
        refine ⟨?_, ?_, ?_⟩
        · have d1 := findSubstr_decomp hp
          have d2 := findSubstr_decomp hq
          calc s = s.take p ++ op ++ s.drop (p + op.length) := d1
            _ = s.take p ++ op ++
                ((s.drop (p + op.length)).take q ++ cl ++
                  (s.drop (p + op.length)).drop (q + cl.length)) := by rw [← d2]
            _ = s.take p ++ op ++ (s.drop (p + op.length)).take q ++ cl ++
                  (s.drop (p + op.length)).drop (q + cl.length) := by
                  simp [List.append_assoc]
        · cases hzero : p with
          | zero =>
            subst hzero
            simp only [List.take_zero]
            cases op with
            | nil => exact absurd rfl hne.1
            | cons a b => rfl
          | succ p' =>
            have hmin := findSubstr_min hp 0 (by omega)
            simp only [List.drop_zero] at hmin
            by_cases hp2 : op.isPrefixOf (s.take (p' + 1)) = true
            · have h1 : op <+: s.take (p' + 1) := isPrefixOf_iff.mp hp2
              have h2 : op <+: s := h1.trans (List.take_prefix _ _)
              rw [isPrefixOf_iff.mpr h2] at hmin
              exact absurd hmin (by simp)
            · exact bool_eq_false hp2
        · rw [List.drop_drop]
          exact List.drop_suffix _ _

theorem tailsOk_suffix {op cl s t : Str}
    (hok : (s.tails.all fun u =>
      match findRegionMatch op cl u with
      | some _ => true
      | none => u.isEmpty || !(op.isPrefixOf u && cl.isSuffixOf u)) = true)
    (hsuf : t <:+ s) :
    (t.tails.all fun u =>
      match findRegionMatch op cl u with
      | some _ => true
      | none => u.isEmpty || !(op.isPrefixOf u && cl.isSuffixOf u)) = true := by
  rw [List.all_eq_true] at hok ⊢
  intro u hu
  exact hok u ((List.mem_tails _ _).mpr (((List.mem_tails _ _).mp hu).trans hsuf))

/-- Re-insertion of the delimiters stripped off an expression token's text
(content tokens are kept verbatim). -/
def rebuildToken (op cl : Str) (t : Token) : Str :=
  match t.type with
  | .expression => op ++ t.text ++ cl
  | .content => t.text

def rebuild (op cl : Str) (ts : List Token) : Str :=
  (ts.map (rebuildToken op cl)).flatten

/-- Absence of the degenerate overlap: no unmatched suffix of the input both
starts with the open delimiter and ends with the close delimiter.  Any suffix
that fails this (possible only when it is shorter than the two delimiters
together) is misclassified by `tokenize` as an expression part. -/
def tailsOk (op cl s : Str) : Bool :=
  s.tails.all fun u =>
    match findRegionMatch op cl u with
    | some _ => true
    | none => u.isEmpty || !(op.isPrefixOf u && cl.isSuffixOf u)

theorem classifyPart_match (op cl inner : Str) (hop : op ≠ []) (hcl : cl ≠ []) :
    classifyPart op cl (op ++ inner ++ cl) = some ⟨.expression, inner⟩ := by
  have hpre : op.isPrefixOf (op ++ inner ++ cl) = true :=
    isPrefixOf_iff.mpr ⟨inner ++ cl, by simp⟩
  have hsuf : cl.isSuffixOf (op ++ inner ++ cl) = true :=
    List.isSuffixOf_iff_suffix.mpr ⟨op ++ inner, by simp⟩
  have hlen : (op ++ inner ++ cl).length - cl.length = op.length + inner.length := by
    simp only [List.length_append]
    omega
  have hmax : max op.length (op.length + inner.length) = op.length + inner.length := by
    omega
  have hmin : min op.length (op.length + inner.length) = op.length := by
    omega
  have htake : (op ++ inner ++ cl).take (op.length + inner.length) = op ++ inner := by
    have he : op ++ inner ++ cl = (op ++ inner) ++ cl := by simp
    rw [he]
    have hl : op.length + inner.length = (op ++ inner).length := by simp
    rw [hl, List.take_left]
  have hdrop : (op ++ inner).drop op.length = inner := List.drop_left _ _
  have hsub : jsSubstring (op ++ inner ++ cl) op.length
      ((op ++ inner ++ cl).length - cl.length) = inner := by
    unfold jsSubstring
    rw [hlen, hmax, hmin, htake, hdrop]
  unfold classifyPart
  rw [hpre, hsuf, hsub]
  norm_num

theorem classifyPart_content (cl : Str) {op part : Str}
    (hpre : op.isPrefixOf part = false) (hne : part ≠ []) :
    classifyPart op cl part = some ⟨.content, part⟩ := by
  unfold classifyPart
  rw [hpre]
  simp [hne]

theorem classifyPart_nil {op cl : Str} (hop : op ≠ []) :
    classifyPart op cl [] = none := by
  have hpre : op.isPrefixOf ([] : Str) = false := by
    cases op with
    | nil => exact absurd rfl hop
    | cons a b => rfl
  unfold classifyPart
  rw [hpre]
  simp

/-- Amended reconstruction invariant: concatenating the tokens with expression
tokens re-wrapped in their delimiters rebuilds the input, for nonempty
delimiters and inputs without the degenerate unmatched-overlap suffix. -/
theorem rebuild_tokenize (op cl : Str) (hop : op ≠ []) (hcl : cl ≠ [])
    (s : Str) (hok : tailsOk op cl s = true) :
    rebuild op cl (tokenize s op cl) = s := by
  obtain ⟨n, hn⟩ : ∃ n, s.length ≤ n := ⟨s.length, le_refl _⟩
  induction n generalizing s with
  | zero =>
    have hs : s = [] := List.length_eq_zero.mp (by omega)
    subst hs
    have hm : findRegionMatch op cl ([] : Str) = none := by
      unfold findRegionMatch
      split
      · rfl
      · rename_i hne
        push_neg at hne
        cases hf : findSubstr op ([] : Str) with
        | none => rfl
        | some p =>
          have := findSubstr_some hf
          simp only [List.drop_nil] at this
          have := isPrefixOf_iff.mp this
          have : op = [] := List.prefix_nil.mp this
          exact absurd this hne.1
    rw [tokenize, splitParts_eq_none hm]
    simp [rebuild, classifyPart_nil hop]
  | succ n ih =>
    cases hm : findRegionMatch op cl s with
    | none =>
      rw [tokenize, splitParts_eq_none hm]
      cases hs : s with
      | nil => simp [rebuild, classifyPart_nil hop]
      | cons c t =>
        have hself : s ∈ s.tails := (List.mem_tails _ _).mpr (List.suffix_refl s)
        have hall := (List.all_eq_true.mp hok) s hself
        simp only [hm] at hall
        rw [hs] at hall
        have hfalse : (op.isPrefixOf (c :: t) && cl.isSuffixOf (c :: t)) = false := by
          cases hb : (op.isPrefixOf (c :: t) && cl.isSuffixOf (c :: t)) with
          | false => rfl
          | true => rw [hb] at hall; simp at hall
        have hclass : classifyPart op cl (c :: t) = some ⟨.content, c :: t⟩ := by
          unfold classifyPart
          rw [hfalse]
          simp
        simp [List.filterMap_cons, hclass, rebuild, rebuildToken]
    | some x =>
      obtain ⟨pre, inner, rest⟩ := x
      obtain ⟨hdec, hpre, hsuf⟩ := findRegionMatch_spec hm
      have hrlt : rest.length < s.length := findRegionMatch_rest_lt hm
      have hok2 : tailsOk op cl rest = true := tailsOk_suffix hok hsuf
      have ihrest := ih rest hok2 (by omega)
      rw [tokenize, splitParts_eq_some hm]
      rw [List.filterMap]
      cases hp : pre with
      | nil =>
        rw [classifyPart_nil hop, List.filterMap, classifyPart_match op cl inner hop hcl]
        rw [tokenize] at ihrest
        simp only [rebuild, List.map_cons, List.flatten_cons] at ihrest ⊢
        rw [ihrest]
        rw [hdec, hp]
        simp [rebuildToken]
      | cons a b =>
        rw [← hp, classifyPart_content cl hpre (by rw [hp]; simp)]
        rw [List.filterMap, classifyPart_match op cl inner hop hcl]
        rw [tokenize] at ihrest
        simp only [rebuild, List.map_cons, List.flatten_cons] at ihrest ⊢
        rw [ihrest]
        rw [hdec]
        simp [rebuildToken]

theorem findRegionMatch_none_of_no_open (cl : Str) {op s : Str}
    (h : findSubstr op s = none) : findRegionMatch op cl s = none := by
  unfold findRegionMatch
  split
  · rfl
  · simp [h]

/-- C1 counterexample: tokenizing `<%x%>` with the default delimiters yields a
single expression token whose text is `x` — the delimiters are stripped — so
concatenating the tokens' texts gives `x`, not the original input. -/
theorem c1_counterexample :
    ((tokenize "<%x%>".data "<%".data "%>".data).map Token.text).flatten ≠ "<%x%>".data := by
  simp [tokenize, splitParts, findRegionMatch, findSubstr, classifyPart,
    jsSubstring, List.isPrefixOf, List.isSuffixOf, List.filterMap]

/-- C1 (amended): concatenating the tokens' texts with every expression
token's text re-wrapped between the open and close delimiters reconstructs the
original input exactly, provided the delimiters are nonempty and no unmatched
trailing segment of the input simultaneously begins with the open delimiter
and ends with the close delimiter (the degenerate overlap `tailsOk` rules
out). -/
theorem c1_token_reconstruction (op cl s : Str) (hop : op ≠ []) (hcl : cl ≠ [])
    (hok : tailsOk op cl s = true) :
    rebuild op cl (tokenize s op cl) = s :=
  rebuild_tokenize op cl hop hcl s hok

/-- Witness for C1 (amended) at the input `a<%=x%>b` with the default
delimiter pair. -/
theorem c1_token_reconstruction_witness :
    ("<%".data : Str) ≠ [] ∧ ("%>".data : Str) ≠ [] ∧
    tailsOk "<%".data "%>".data "a<%=x%>b".data = true ∧
    rebuild "<%".data "%>".data (tokenize "a<%=x%>b".data "<%".data "%>".data)
      = "a<%=x%>b".data :=
  ⟨by decide, by decide, by decide,
    c1_token_reconstruction "<%".data "%>".data "a<%=x%>b".data
      (by decide) (by decide) (by decide)⟩

/-- C5 counterexample: with open = close = `%%`, the input `%%` contains an
open-delimiter occurrence (at position 0) with no subsequent close-delimiter
occurrence, yet `tokenize` does not return it as literal text — the whole
input is misclassified as an expression token (whose text, via JavaScript's
argument-swapping `substring(2, 0)`, is the full `%%`). -/
theorem c5_counterexample :
    tokenize "%%".data "%%".data "%%".data = [⟨.expression, "%%".data⟩] ∧
    TokenType.expression ≠ TokenType.content := by
  constructor
  · simp [tokenize, splitParts, findRegionMatch, findSubstr, classifyPart,
      jsSubstring, List.isPrefixOf, List.isSuffixOf, List.filterMap]
  · simp

/-- C5 (amended): `tokenize` is a total function by construction, and an input
segment containing an unterminated open delimiter is returned whole as one
literal content token extending to end-of-input — unless the unmatched
segment itself both begins with the open delimiter and ends with the close
delimiter (an overlap shorter than the two delimiters combined), in which
case it is misclassified as an expression token. -/
theorem c5_unterminated_literal (op cl s : Str)
    (h : findRegionMatch op cl s = none) (hne : s ≠ [])
    (hnot : (op.isPrefixOf s && cl.isSuffixOf s) = false) :
    tokenize s op cl = [⟨.content, s⟩] := by
  rw [tokenize, splitParts_eq_none h]
  have hclass : classifyPart op cl s = some ⟨.content, s⟩ := by
    unfold classifyPart
    rw [hnot]
    simp [hne]
  simp [List.filterMap_cons, hclass]

/-- Witness for C5 (amended) at `a<%b` — an unterminated open delimiter at
position 1 — with the default delimiter pair. -/
theorem c5_unterminated_literal_witness :
    findRegionMatch "<%".data "%>".data "a<%b".data = none ∧
    ("a<%b".data : Str) ≠ [] ∧
    (("<%".data : Str).isPrefixOf "a<%b".data && ("%>".data : Str).isSuffixOf "a<%b".data)
      = false ∧
    tokenize "a<%b".data "<%".data "%>".data = [⟨.content, "a<%b".data⟩] :=
  ⟨by decide, by decide, by decide,
    c5_unterminated_literal "<%".data "%>".data "a<%b".data
      (by decide) (by decide) (by decide)⟩

/-- C6: an input containing no open-delimiter occurrence — in particular one
containing double quotes, backslashes and newlines — compiles to a single
escaped literal-append statement whose evaluation returns the input verbatim:
the literal escaping round-trips exactly. -/
theorem c6_literal_roundtrip (op cl s : Str) (hop : op ≠ [])
    (hfind : findSubstr op s = none) :
    runProgram (compileStmts s op cl) = some s := by
  have hm := findRegionMatch_none_of_no_open cl hfind
  rw [compileStmts, tokenize, splitParts_eq_none hm]
  cases s with
  | nil => simp [classifyPart_nil hop, runProgram, runStmts]
  | cons c t =>
    have hpre : op.isPrefixOf (c :: t) = false := findSubstr_none_not_pre hfind
    have hclass := classifyPart_content cl hpre (by simp)
    simp [List.filterMap_cons, hclass, runProgram, runStmts, decodeJs_escapeString]

/-- Witness for C6 at an input containing a double quote, a backslash and a
newline, with the default delimiter pair. -/
theorem c6_literal_roundtrip_witness :
    ("<%".data : Str) ≠ [] ∧
    findSubstr "<%".data "a\"\\\nb".data = none ∧
    runProgram (compileStmts "a\"\\\nb".data "<%".data "%>".data) = some "a\"\\\nb".data :=
  ⟨by decide, by decide,
    c6_literal_roundtrip "<%".data "%>".data "a\"\\\nb".data (by decide) (by decide)⟩

/-- C7: expression regions are evaluated and appended in token order — the
template `<%= "a" %><%= "b" %>` evaluates to `ab`, and swapping the two
regions yields `ba`. -/
theorem c7_expression_order :
    runProgram (compileStmts "<%= \"a\" %><%= \"b\" %>".data "<%".data "%>".data)
      = some "ab".data ∧
    runProgram (compileStmts "<%= \"b\" %><%= \"a\" %>".data "<%".data "%>".data)
      = some "ba".data := by
  constructor <;>
    simp [compileStmts, tokenize, splitParts, findRegionMatch, findSubstr, classifyPart,
      jsSubstring, List.isPrefixOf, List.isSuffixOf, List.filterMap, runProgram, runStmts,
      evalJsExpr, trimWs, isWsChar, decodeJs, decodeEsc, escapeString, replaceChar]

/-! ### The recursive metadata collector (`context.metas`, `src/context.ts` lines 70-95)

The filesystem subtree below the collection root is modelled as a tree of
named entries.  `fs.readdirSync` lists a directory's children in order;
`fs.existsSync(fullPath + "/meta.json")` holds exactly when the entry has a
child named `meta.json`; `fs.readFileSync` on a directory throws `EISDIR`;
`JSON.parse` is abstracted away — a metadata file's parsed value is modelled
by its raw content string.  `path.relative(dirPath, fullPath)` for the paths
arising in the walk is the chain of entry names joined with `/`. -/

/-- A directory entry of the modelled input tree. -/
inductive Ent where
  | file (name : Str) (content : Str)
  | dir (name : Str) (children : List Ent)

def entName : Ent → Str
  | .file n _ => n
  | .dir n _ => n

def lookupChild : List Ent → Str → Option Ent
  | [], _ => none
  | e :: rest, n => if entName e = n then some e else lookupChild rest n

/-- Components joined with the path separator. -/
def joinPath : List Str → Str
  | [] => []
  | [p] => p
  | p :: rest => p ++ '/' :: joinPath rest

/-- One `{directory, meta}` result of the collector. -/
structure MetaItem where
  directory : Str
  meta : Str
deriving DecidableEq, Repr

/-- Model of `findMetas` of `context.metas` (`src/context.ts`, lines 73-92): walk the
entries of the current directory in listing order; an entry with a child
`meta.json` file contributes one item tagged with its root-relative path and
is not descended into (the `else if`); a directory without one is recursed
into depth-first; plain files contribute nothing.  Reading a directory named
`meta.json` throws. -/
def findMetas : List Str → List Ent → Except Str (List MetaItem)
  | _, [] => .ok []
  | rel, Ent.file _ _ :: rest => findMetas rel rest
  | rel, Ent.dir n cs :: rest =>
    match lookupChild cs "meta.json".data with
    | some (Ent.file _ c) =>
      match findMetas rel rest with
      | .error e => .error e
      | .ok tail => .ok (⟨joinPath (rel ++ [n]), c⟩ :: tail)
    | some (Ent.dir _ _) => .error "EISDIR".data
    | none =>
      match findMetas (rel ++ [n]) cs with
      | .error e => .error e
      | .ok sub =>
        match findMetas rel rest with
        | .error e => .error e
        | .ok tail => .ok (sub ++ tail)
termination_by rel es => sizeOf es

/-- C2 counterexample: with `meta.json` files both in the depth-1 directory
`a` and in `a/b` at depth 2 below it, the collector returns only the entry
for `a` — a directory carrying a metadata file is not descended into, so the
depth-2 file below it contributes no entry. -/
theorem c2_counterexample :
    findMetas []
        [Ent.dir "a".data [Ent.file "meta.json".data "m1".data,
          Ent.dir "b".data [Ent.file "meta.json".data "m2".data]]]
      = .ok [⟨"a".data, "m1".data⟩] ∧
    (∀ items, findMetas []
        [Ent.dir "a".data [Ent.file "meta.json".data "m1".data,
          Ent.dir "b".data [Ent.file "meta.json".data "m2".data]]]
      = .ok items → ¬ ∃ it ∈ items, it.directory = "a/b".data) := by
  refine ⟨?_, ?_⟩
  · simp [findMetas, lookupChild, entName, joinPath]
  · intro items hit
    rw [show findMetas []
        [Ent.dir "a".data [Ent.file "meta.json".data "m1".data,
          Ent.dir "b".data [Ent.file "meta.json".data "m2".data]]]
      = .ok [⟨"a".data, "m1".data⟩] by
        simp [findMetas, lookupChild, entName, joinPath]] at hit
    simp only [Except.ok.injEq] at hit
    subst hit
    decide

/-- C2 (amended): a depth-1 metadata file is returned tagged `a`; a depth-2
metadata file is returned (tagged with its root-relative path `c/d`, in
depth-first listing order) only when its intermediate directory carries no
metadata file of its own — a directory carrying one, like `a`, is not
descended into, so `a/b/meta.json` contributes no entry; a directory with no
metadata file and no qualifying descendants, like `e`, contributes nothing. -/
theorem c2_collector_behaviour (m1 m2 : Str) :
    findMetas []
        [Ent.dir "a".data [Ent.file "meta.json".data m1,
          Ent.dir "b".data [Ent.file "meta.json".data m2]],
         Ent.dir "c".data [Ent.dir "d".data [Ent.file "meta.json".data m2]],
         Ent.dir "e".data []]
      = .ok [⟨"a".data, m1⟩, ⟨"c/d".data, m2⟩] := by
  simp [findMetas, lookupChild, entName, joinPath]

/-! ### The tree synchronizer (`src/transform.ts`, lines 103-243)

Directories are association lists of named nodes in `readdirSync` listing
order; files and directories carry a modification time.  `fs.statSync`
succeeds on any existing entry; `fs.writeFileSync` overwrites a file, creates
a missing one and throws `EISDIR` on a directory; `fs.readdirSync` on a file
throws `ENOTDIR`; a written file's modification time is the time `now` of the
pass.  The per-file pipeline callback (`transform`) receives the file's name
and content and yields the output file name and content — the repository's
transformers rewrite only the extension of `context.outputPath`, so the write
stays in the same directory — or fails with an evaluation/transformer error. -/

inductive FsNode where
  | file (mtime : Nat) (content : Str)
  | dir (mtime : Nat) (entries : List (Str × FsNode))

def statMtime : FsNode → Nat
  | .file m _ => m
  | .dir m _ => m

def lookupEntry : List (Str × FsNode) → Str → Option FsNode
  | [], _ => none
  | (n, v) :: rest, m => if n = m then some v else lookupEntry rest m

def setEntry : List (Str × FsNode) → Str → FsNode → List (Str × FsNode)
  | [], n, v => [(n, v)]
  | (m, w) :: rest, n, v => if m = n then (n, v) :: rest else (m, w) :: setEntry rest n v

inductive PassErr where
  | io (code : Str)
  | user (msg : Str)
deriving DecidableEq, Repr

def writeFile (now : Nat) (outs : List (Str × FsNode)) (name content : Str) :
    Except PassErr (List (Str × FsNode)) :=
  match lookupEntry outs name with
  | some (.dir ..) => .error (.io "EISDIR".data)
  | _ => .ok (setEntry outs name (.file now content))

def lastDotIdx : Str → Option Nat
  | [] => none
  | c :: rest =>
    match lastDotIdx rest with
    | some i => some (i + 1)
    | none => if c = '.' then some 0 else none

/-- Model of `path.extname` on an entry name: the substring from the last `.`, empty
when there is no dot or the only dot leads the name. -/
def extname (name : Str) : Str :=
  match lastDotIdx name with
  | none => []
  | some 0 => []
  | some i => name.drop i

/-- Model of `isTextFile` of `traverseAndProcess` (`src/transform.ts`, lines 170-173):
lower-cased extension membership in `config.transformedExtensions`. -/
def isTextFile (exts : List Str) (name : Str) : Bool :=
  exts.contains ((extname name).map Char.toLower)

abbrev Callback := Str → Str → Except Str (Str × Str)

/-- The deletion step (`src/transform.ts`, lines 136-148): every output entry
whose name is absent from the input listing is removed — the name set is
taken from ALL input entries, ignored (`_`-prefixed) ones included. -/
def deleteStale (inNames : List Str) : List (Str × FsNode) → List (Str × FsNode)
  | [] => []
  | (n, v) :: rest =>
    if inNames.contains n then (n, v) :: deleteStale inNames rest
    else deleteStale inNames rest

/-- Processing of one non-ignored input file (`src/transform.ts`, lines
160-187): a transformable file is re-read and run through the pipeline
unconditionally and its output written at the pipeline's output name; any
other file is copied verbatim exactly when no output entry exists or the
input's modification time is strictly newer. -/
def processFileItem (cb? : Option Callback) (exts : List Str) (now : Nat)
    (name : Str) (tm : Nat) (content : Str) (outs : List (Str × FsNode)) :
    List (Str × FsNode) × Option PassErr :=
  if List.isPrefixOf ['_'] name then (outs, none)
  else
    let outStat := (lookupEntry outs name).map statMtime
    match cb?, isTextFile exts name with
    | some cb, true =>
      match cb name content with
      | .error e => (outs, some (.user e))
      | .ok (outName, out) =>
        match writeFile now outs outName out with
        | .error pe => (outs, some pe)
        | .ok outs' => (outs', none)
    | _, _ =>
      match outStat with
      | none =>
        match writeFile now outs name content with
        | .error pe => (outs, some pe)
        | .ok outs' => (outs', none)
      | some mt =>
        if mt < tm then
          match writeFile now outs name content with
          | .error pe => (outs, some pe)
          | .ok outs' => (outs', none)
        else (outs, none)

mutual

/-- Processing of one input entry.  A non-ignored directory ensures its
output counterpart exists (`mkdirSync`), then recurses — the recursive call
is `traverseAndProcess` on the child listings, i.e. the deletion step
followed by the processing loop; readdir-ing an output FILE of the same name
throws `ENOTDIR`.  An error during recursion propagates, but mutations
already performed below the directory persist. -/
def processStep (cb? : Option Callback) (exts : List Str) (now : Nat)
    (name : Str) (node : FsNode) (outs : List (Str × FsNode)) :
    List (Str × FsNode) × Option PassErr :=
  match node with
  | .file tm content => processFileItem cb? exts now name tm content outs
  | .dir _ inChildren =>
    if List.isPrefixOf ['_'] name then (outs, none)
    else
      match lookupEntry outs name with
      | some (.file ..) => (outs, some (.io "ENOTDIR".data))
      | some (.dir m outChildren) =>
        let r := processItems cb? exts now inChildren
          (deleteStale (inChildren.map Prod.fst) outChildren)
        (setEntry outs name (.dir m r.1), r.2)
      | none =>
        let r := processItems cb? exts now inChildren
          (deleteStale (inChildren.map Prod.fst) [])
        (setEntry outs name (.dir now r.1), r.2)
termination_by sizeOf node

/-- The processing loop of `traverseAndProcess` (`src/transform.ts`, lines
150-189): input entries in listing order, sequentially; the first error stops
the loop — entries after it are not processed. -/
def processItems (cb? : Option Callback) (exts : List Str) (now : Nat) :
    List (Str × FsNode) → List (Str × FsNode) → List (Str × FsNode) × Option PassErr
  | [], outs => (outs, none)
  | (name, node) :: rest, outs =>
    match processStep cb? exts now name node outs with
    | (outs', none) => processItems cb? exts now rest outs'
    | (outs', some e) => (outs', some e)
termination_by es _ => sizeOf es

end

/-- Model of `traverseAndProcess(currentInputDir, currentOutputDir)`: the deletion
step over the output listing, then the processing loop over the input
listing. -/
def traverseAndProcess (cb? : Option Callback) (exts : List Str) (now : Nat)
    (inEntries outEntries : List (Str × FsNode)) :
    List (Str × FsNode) × Option PassErr :=
  processItems cb? exts now inEntries (deleteStale (inEntries.map Prod.fst) outEntries)

/-- Model of `deleteEmptyDirs` (`src/transform.ts`, lines 197-208): post-order removal
of output directories left empty. -/
def deleteEmptyDirs : List (Str × FsNode) → List (Str × FsNode)
  | [] => []
  | (n, .file tm c) :: rest => (n, .file tm c) :: deleteEmptyDirs rest
  | (n, .dir m cs) :: rest =>
    let cs' := deleteEmptyDirs cs
    if cs'.isEmpty then deleteEmptyDirs rest
    else (n, .dir m cs') :: deleteEmptyDirs rest
termination_by es => sizeOf es

/-- Model of `processFiles` (`src/transform.ts`, lines 130-211): create the output
root if missing, run the traversal, and only when it completed without an
escaped error run the empty-directory pruning pass. -/
def processFiles (cb? : Option Callback) (exts : List Str) (now : Nat)
    (inEntries : List (Str × FsNode)) (outRoot : Option (List (Str × FsNode))) :
    List (Str × FsNode) × Option PassErr :=
  let outs0 := outRoot.getD []
  match traverseAndProcess cb? exts now inEntries outs0 with
  | (outs1, some e) => (outs1, some e)
  | (outs1, none) => (deleteEmptyDirs outs1, none)

/-- Model of `blargh(config)` (`src/transform.ts`, lines 216-243): the pass runs
inside `try { ... } catch (e) {}` — a pass-level error never escapes; control
returns (to the watch loop when watching) with the partially updated output
tree. -/
def blargh (cb? : Option Callback) (exts : List Str) (now : Nat)
    (inEntries : List (Str × FsNode)) (outRoot : Option (List (Str × FsNode))) :
    List (Str × FsNode) :=
  (processFiles cb? exts now inEntries outRoot).1

/-- The transformer fold of `transform` (`src/transform.ts`, lines 119-121). -/
def runTransformers : List (Str → Except Str Str) → Str → Except Str Str
  | [], out => .ok out
  | tr :: rest, out =>
    match tr out with
    | .error e => .error e
    | .ok out' => runTransformers rest out'

/-- Model of `transform(config, context)` (`src/transform.ts`, lines 103-128) with the
host-engine evaluation outcome abstracted as `interpretRes`: on success the
transformers run in registration order; any error raised during evaluation or
a transformer is logged (`console.error`) by the surrounding `catch` and
rethrown.  The second component is the `console.error` log. -/
def transform (interpretRes : Except Str Str)
    (transformers : List (Str → Except Str Str)) : Except Str Str × List Str :=
  match interpretRes with
  | .error e => (.error e, [e])
  | .ok out =>
    match runTransformers transformers out with
    | .error e => (.error e, [e])
    | .ok out' => (.ok out', [])

/-- C3 counterexample: a full pass over an input tree whose only entry is the
ignored file `_a`, with an identically named stale file `_a` in the output
tree, leaves the output entry in place — the deletion step's name set
includes ignored input entries, and ignored entries are never processed, so
an ignore-prefixed entry persists in the output tree after a completed
pass. -/
theorem c3_counterexample :
    blargh (some fun n c => .ok (n, c)) [".html".data] 7
        [("_a".data, .file 0 "x".data)] (some [("_a".data, .file 0 "y".data)])
      = [("_a".data, .file 0 "y".data)] := by
  simp [blargh, processFiles, traverseAndProcess, processItems, processStep, processFileItem,
    deleteStale, deleteEmptyDirs, lookupEntry, setEntry, writeFile, isTextFile, extname,
    lastDotIdx, List.isPrefixOf]

/-- C3 (amended): the deletion step removes exactly the output entries whose
name has no same-named input counterpart at all — ignored input entries count
as counterparts — and consequently an ignore-prefixed output entry whose name
matches an (ignored) input entry survives a completed pass untouched: it is
neither deleted nor rewritten, for any modification times and contents. -/
theorem c3_stale_deletion (cb? : Option Callback) (exts : List Str) (now : Nat)
    (inNames : List Str) (outs : List (Str × FsNode))
    (tm tm' : Nat) (c c' : Str) :
    deleteStale inNames outs = outs.filter (fun p => inNames.contains p.1) ∧
    blargh cb? exts now [("_a".data, .file tm c)] (some [("_a".data, .file tm' c')])
      = [("_a".data, .file tm' c')] := by
  constructor
  · induction outs with
    | nil => rfl
    | cons q rest ih =>
      obtain ⟨n, v⟩ := q
      unfold deleteStale
      rw [List.filter_cons, ih]
  · simp [blargh, processFiles, traverseAndProcess, processItems, processStep, processFileItem,
      deleteStale, deleteEmptyDirs, lookupEntry, setEntry, writeFile, isTextFile, extname,
      lastDotIdx, List.isPrefixOf]

/-- C4 counterexample: input file `x` (extension not transformable, mtime 0)
and an output DIRECTORY named `x` with mtime 5: no output *file* exists at
the name, yet nothing is copied — `statSync` succeeds on the directory and
the mtime comparison fails, so the claimed "copied iff no output file exists
or the input is newer" is violated. -/
theorem c4_counterexample :
    processFileItem (some fun n c => .ok (n, c)) [".html".data] 9
        "x".data 0 "c".data [("x".data, .dir 5 [])]
      = ([("x".data, .dir 5 [])], none) := by
  simp [processFileItem, lookupEntry, statMtime, writeFile, isTextFile, extname,
    lastDotIdx, List.isPrefixOf]

/-- C4 (amended): during a sync pass, for a non-ignored input file — if its
lower-cased extension is in the transformable set it is always run through
the pipeline regardless of any modification times and the result written at
the pipeline's output name (the write failing with `EISDIR` when a directory
occupies it; a pipeline error propagates); otherwise it is copied verbatim
exactly when no output entry exists at its name or the input's modification
time is strictly newer than that entry's — where the entry may also be a
directory, whose presence suppresses the copy when not older, and onto which
a due copy fails with `EISDIR`. -/
theorem c4_transform_decision (cb : Callback) (exts : List Str) (now : Nat)
    (name : Str) (tm : Nat) (content : Str) (outs : List (Str × FsNode))
    (hname : List.isPrefixOf ['_'] name = false) :
    (∀ outName out outs', isTextFile exts name = true →
      cb name content = .ok (outName, out) →
      writeFile now outs outName out = .ok outs' →
      processFileItem (some cb) exts now name tm content outs = (outs', none)) ∧
    (∀ e, isTextFile exts name = true → cb name content = .error e →
      processFileItem (some cb) exts now name tm content outs
        = (outs, some (.user e))) ∧
    (∀ outName out pe, isTextFile exts name = true →
      cb name content = .ok (outName, out) →
      writeFile now outs outName out = .error pe →
      processFileItem (some cb) exts now name tm content outs = (outs, some pe)) ∧
    (isTextFile exts name = false → lookupEntry outs name = none →
      processFileItem (some cb) exts now name tm content outs
        = (setEntry outs name (.file now content), none)) ∧
    (∀ mt oc, isTextFile exts name = false →
      lookupEntry outs name = some (.file mt oc) → mt < tm →
      processFileItem (some cb) exts now name tm content outs
        = (setEntry outs name (.file now content), none)) ∧
    (∀ v, isTextFile exts name = false → lookupEntry outs name = some v →
      ¬ statMtime v < tm →
      processFileItem (some cb) exts now name tm content outs = (outs, none)) ∧
    (∀ mt cs, isTextFile exts name = false →
      lookupEntry outs name = some (.dir mt cs) → mt < tm →
      processFileItem (some cb) exts now name tm content outs
        = (outs, some (.io "EISDIR".data))) := by
  refine ⟨?_, ?_, ?_, ?_, ?_, ?_, ?_⟩
  · intro outName out outs' htext hcb hw
    simp [processFileItem, hname, htext, hcb, hw]
  · intro e htext hcb
    simp [processFileItem, hname, htext, hcb]
  · intro outName out pe htext hcb hw
    simp [processFileItem, hname, htext, hcb, hw]
  · intro htext hlook
    simp [processFileItem, hname, htext, hlook, writeFile]
  · intro mt oc htext hlook hlt
    simp [processFileItem, hname, htext, hlook, hlt, writeFile, statMtime]
  · intro v htext hlook hge
    simp [processFileItem, hname, htext, hlook, hge]
  · intro mt cs htext hlook hlt
    simp [processFileItem, hname, htext, hlook, hlt, writeFile, statMtime]

/-- Witness for C4 (amended): a transformable file is written through the
pipeline into an empty output directory (first conjunct), at mtime 0 — no
freshness check involved. -/
theorem c4_transform_decision_witness :
    List.isPrefixOf ['_'] "a.html".data = false ∧
    isTextFile [".html".data] "a.html".data = true ∧
    processFileItem (some fun n c => .ok (n, c)) [".html".data] 3
        "a.html".data 0 "hi".data []
      = ([("a.html".data, .file 3 "hi".data)], none) :=
  ⟨by decide, by decide,
    (c4_transform_decision (fun n c => .ok (n, c)) [".html".data] 3
        "a.html".data 0 "hi".data [] (by decide)).1
      "a.html".data "hi".data _ (by decide) rfl rfl⟩

theorem processItems_append {cb? : Option Callback} {exts : List Str} {now : Nat}
    {xs : List (Str × FsNode)} {outs outs' : List (Str × FsNode)}
    (ys : List (Str × FsNode))
    (h : processItems cb? exts now xs outs = (outs', none)) :
    processItems cb? exts now (xs ++ ys) outs = processItems cb? exts now ys outs' := by
  induction xs generalizing outs with
  | nil =>
    rw [processItems] at h
    simp only [Prod.mk.injEq] at h
    rw [h.1]
    rfl
  | cons x rest ih =>
    obtain ⟨name, node⟩ := x
    rw [List.cons_append]
    rw [processItems] at h
    rw [processItems]
    cases hstep : processStep cb? exts now name node outs with
    | mk o2 err =>
      cases err with
      | none =>
        rw [hstep] at h
        exact ih h
      | some e =>
        rw [hstep] at h
        simp at h

theorem processFileItem_cb_error {cb : Callback} {exts : List Str} {now : Nat}
    {name : Str} {tm : Nat} {content : Str} {outs : List (Str × FsNode)} {msg : Str}
    (hname : List.isPrefixOf ['_'] name = false)
    (htext : isTextFile exts name = true)
    (hcb : cb name content = .error msg) :
    processFileItem (some cb) exts now name tm content outs = (outs, some (.user msg)) := by
  simp [processFileItem, hname, htext, hcb]

/-- C8: an error raised while one file is processed — during evaluation or a
transformer — is logged at the pipeline boundary and rethrown (first
conjunct); it aborts the remainder of the pass: siblings processed before the
failing file keep their effects, siblings after it are never processed, and
the empty-directory pruning of a completed pass is skipped (second conjunct);
the top-level orchestrator swallows the escaped pass-level error and returns
control with the partially updated tree (third conjunct). -/
theorem c8_error_propagation
    (e msg : Str) (trs : List (Str → Except Str Str)) (cb : Callback)
    (exts : List Str) (now : Nat)
    (pre post : List (Str × FsNode)) (badName badContent : Str) (tm : Nat)
    (outRoot : List (Str × FsNode)) (outs1 : List (Str × FsNode))
    (hpre : processItems (some cb) exts now pre
      (deleteStale ((pre ++ (badName, FsNode.file tm badContent) :: post).map Prod.fst)
        outRoot) = (outs1, none))
    (hname : List.isPrefixOf ['_'] badName = false)
    (htext : isTextFile exts badName = true)
    (hcb : cb badName badContent = .error msg) :
    transform (.error e) trs = (.error e, [e]) ∧
    processFiles (some cb) exts now (pre ++ (badName, FsNode.file tm badContent) :: post)
        (some outRoot) = (outs1, some (.user msg)) ∧
    blargh (some cb) exts now (pre ++ (badName, FsNode.file tm badContent) :: post)
        (some outRoot) = outs1 := by
  have habort : traverseAndProcess (some cb) exts now
      (pre ++ (badName, FsNode.file tm badContent) :: post) outRoot
      = (outs1, some (.user msg)) := by
    rw [traverseAndProcess, processItems_append _ hpre, processItems, processStep,
      processFileItem_cb_error hname htext hcb]
  refine ⟨rfl, ?_, ?_⟩
  · rw [processFiles]
    simp only [Option.getD_some]
    rw [habort]
  · rw [blargh, processFiles]
    simp only [Option.getD_some]
    rw [habort]

/-- Witness for C8: the pipeline fails on `b.html`; the earlier sibling
`a.html` was written, the later sibling `c.html` was not, and the
orchestrator returns the partial tree. -/
theorem c8_error_propagation_witness :
    processItems (some fun n c =>
        if n = "b.html".data then .error "boom".data else .ok (n, c))
      [".html".data] 5 [("a.html".data, FsNode.file 1 "x".data)]
      (deleteStale (([("a.html".data, FsNode.file 1 "x".data)] ++
          ("b.html".data, FsNode.file 1 "y".data) ::
          [("c.html".data, FsNode.file 1 "z".data)]).map Prod.fst) [])
      = ([("a.html".data, FsNode.file 5 "x".data)], none) ∧
    blargh (some fun n c =>
        if n = "b.html".data then .error "boom".data else .ok (n, c))
      [".html".data] 5
      ([("a.html".data, FsNode.file 1 "x".data)] ++
        ("b.html".data, FsNode.file 1 "y".data) ::
        [("c.html".data, FsNode.file 1 "z".data)])
      (some []) = [("a.html".data, FsNode.file 5 "x".data)] := by
  have hpre : processItems (some fun n c =>
        if n = "b.html".data then .error "boom".data else .ok (n, c))
      [".html".data] 5 [("a.html".data, FsNode.file 1 "x".data)]
      (deleteStale (([("a.html".data, FsNode.file 1 "x".data)] ++
          ("b.html".data, FsNode.file 1 "y".data) ::
          [("c.html".data, FsNode.file 1 "z".data)]).map Prod.fst) [])
      = ([("a.html".data, FsNode.file 5 "x".data)], none) := by
    simp [processItems, processStep, processFileItem, deleteStale, lookupEntry, setEntry,
      writeFile, isTextFile, extname, lastDotIdx, List.isPrefixOf]
  refine ⟨hpre, ?_⟩
  exact (c8_error_propagation "e".data "boom".data [] _ [".html".data] 5
    [("a.html".data, FsNode.file 1 "x".data)]
    [("c.html".data, FsNode.file 1 "z".data)]
    "b.html".data "y".data 1 [] [("a.html".data, FsNode.file 5 "x".data)]
    hpre (by decide) (by decide) (by simp)).2.2

/-! ### Context objects (`src/context.ts`, lines 11-20, 44-58, 64-68)

A `Context` is a mutable JavaScript object; embedded code, extenders and
`meta()` mutate its top-level keys in place.  Objects live in a heap indexed
by allocation order; an object is an association list of keys in insertion
order.  `objAssign` is the key-level semantics shared by object spread
`{...base, ...upd}` and `Object.assign(base, upd)`: keys of `upd` win, the
base's key order is kept, new keys are appended. -/

abbrev Obj (α : Type) := List (Str × α)

def lookupKey {α : Type} : Obj α → Str → Option α
  | [], _ => none
  | (k, v) :: rest, n => if k = n then some v else lookupKey rest n

def objAssign {α : Type} (base upd : Obj α) : Obj α :=
  base.map (fun p => (p.1, (lookupKey upd p.1).getD p.2)) ++
    upd.filter (fun p => (lookupKey base p.1).isNone)

abbrev Heap (α : Type) := List (Obj α)

def getObjList {α : Type} : List (Obj α) → Nat → Obj α
  | [], _ => []
  | o :: _, 0 => o
  | _ :: rest, n + 1 => getObjList rest n

def setObjList {α : Type} : List (Obj α) → Nat → Obj α → List (Obj α)
  | [], _, _ => []
  | _ :: rest, 0, o => o :: rest
  | x :: rest, n + 1, o => x :: setObjList rest n o

def getObj {α : Type} (h : Heap α) (r : Nat) : Obj α := getObjList h r

def setObj {α : Type} (h : Heap α) (r : Nat) (o : Obj α) : Heap α := setObjList h r o

/-- Allocation of a fresh object (a JavaScript object literal). -/
def alloc {α : Type} (h : Heap α) (o : Obj α) : Heap α × Nat :=
  (h ++ [o], h.length)

/-- Assignment `context[k] = v`: top-level key assignment on the object at `r`. -/
def setKey {α : Type} (h : Heap α) (r : Nat) (k : Str) (v : α) : Heap α :=
  setObj h r (objAssign (getObj h r) [(k, v)])

/-- Removal `delete context[k]`. -/
def delKey {α : Type} (h : Heap α) (r : Nat) (k : Str) : Heap α :=
  setObj h r ((getObj h r).filter (fun p => decide (p.1 ≠ k)))

/-- A top-level key mutation performed on a context during a render: a key
added or reassigned, or a key removed. -/
inductive CtxOp (α : Type) where
  | set (k : Str) (v : α)
  | del (k : Str)

def applyOp {α : Type} (h : Heap α) (r : Nat) : CtxOp α → Heap α
  | .set k v => setKey h r k v
  | .del k => delKey h r k

def applyOps {α : Type} (h : Heap α) (r : Nat) : List (CtxOp α) → Heap α
  | [] => h
  | op :: rest => applyOps (applyOp h r op) r rest

/-- Model of `context.render` (`src/context.ts`, lines 45-58): the include's context is
a freshly allocated object `{...parentContext, ...{inputPath, content,
outputPath}, ...(context ?? {})}` — the caller's resolved keys, overridden by
the include-local path/content triple, overlaid last with the caller-supplied
extras. -/
def renderDerive {α : Type} (h : Heap α) (parent : Nat) (pathVals extras : Obj α) :
    Heap α × Nat :=
  alloc h (objAssign (objAssign (getObj h parent) pathVals) extras)

/-- Model of `context.meta` (`src/context.ts`, lines 64-68): `Object.assign(context,
meta)` merges every top-level key of the parsed metadata file into the
current context object in place, by plain assignment. -/
def metaMerge {α : Type} (h : Heap α) (r : Nat) (meta : Obj α) : Heap α :=
  setObj h r (objAssign (getObj h r) meta)

theorem lookupKey_append {α : Type} (a b : Obj α) (k : Str) :
    lookupKey (a ++ b) k =
      match lookupKey a k with
      | some v => some v
      | none => lookupKey b k := by
  induction a with
  | nil => rfl
  | cons p rest ih =>
    obtain ⟨k0, v0⟩ := p
    by_cases hk : k0 = k
    · simp [lookupKey, hk]
    · simp [lookupKey, hk, ih]

theorem lookupKey_mapVals {α : Type} (base : Obj α) (f : Str → α → α) (k : Str) :
    lookupKey (base.map (fun p => (p.1, f p.1 p.2))) k = (lookupKey base k).map (f k) := by
  induction base with
  | nil => rfl
  | cons p rest ih =>
    obtain ⟨k0, v0⟩ := p
    by_cases hk : k0 = k
    · subst hk
      simp [lookupKey]
    · simp [lookupKey, hk, ih]

theorem lookupKey_filterKey {α : Type} (l : Obj α) (g : Str → Bool) (k : Str) :
    lookupKey (l.filter (fun p => g p.1)) k
      = if g k then lookupKey l k else none := by
  induction l with
  | nil => simp [lookupKey]
  | cons p rest ih =>
    obtain ⟨k0, v0⟩ := p
    by_cases hk : k0 = k
    · subst hk
      by_cases hg : g k0
      · simp [List.filter_cons, hg, lookupKey, ih]
      · simp [List.filter_cons, hg, lookupKey, ih]
    · by_cases hg : g k0
      · simp [List.filter_cons, hg, lookupKey, hk, ih]
      · simp [List.filter_cons, hg, lookupKey, hk, ih]

/-- Key-level reading of `objAssign`: keys of the update win, other keys fall
back to the base. -/
theorem lookupKey_objAssign {α : Type} (base upd : Obj α) (k : Str) :
    lookupKey (objAssign base upd) k =
      match lookupKey upd k with
      | some v => some v
      | none => lookupKey base k := by
  unfold objAssign
  rw [lookupKey_append, lookupKey_mapVals base (fun a b => (lookupKey upd a).getD b) k,
    lookupKey_filterKey upd (fun a => (lookupKey base a).isNone) k]
  cases hb : lookupKey base k with
  | some v =>
    cases hu : lookupKey upd k with
    | some u => simp [hb, hu]
    | none => simp [hb, hu]
  | none =>
    cases hu : lookupKey upd k with
    | some u => simp [hb, hu]
    | none => simp [hb, hu]

theorem getObjList_append_lt {α : Type} (l : List (Obj α)) (o : Obj α) {r : Nat}
    (h : r < l.length) : getObjList (l ++ [o]) r = getObjList l r := by
  induction l generalizing r with
  | nil => simp at h
  | cons a rest ih =>
    cases r with
    | zero => rfl
    | succ r' => exact ih (by simpa using h)

theorem getObjList_append_len {α : Type} (l : List (Obj α)) (o : Obj α) :
    getObjList (l ++ [o]) l.length = o := by
  induction l with
  | nil => rfl
  | cons a rest ih => simpa using ih

theorem getObjList_set_ne {α : Type} (l : List (Obj α)) (o : Obj α) {i j : Nat}
    (h : i ≠ j) : getObjList (setObjList l i o) j = getObjList l j := by
  induction l generalizing i j with
  | nil => rfl
  | cons a rest ih =>
    cases i with
    | zero =>
      cases j with
      | zero => exact absurd rfl h
      | succ j' => rfl
    | succ i' =>
      cases j with
      | zero => rfl
      | succ j' => exact ih (by omega)

theorem getObjList_set_eq {α : Type} (l : List (Obj α)) (o : Obj α) {i : Nat}
    (h : i < l.length) : getObjList (setObjList l i o) i = o := by
  induction l generalizing i with
  | nil => simp at h
  | cons a rest ih =>
    cases i with
    | zero => rfl
    | succ i' => exact ih (by simpa using h)

theorem getObj_applyOp_ne {α : Type} (h : Heap α) (r r' : Nat) (hne : r ≠ r')
    (op : CtxOp α) : getObj (applyOp h r op) r' = getObj h r' := by
  cases op with
  | set k v => simp [applyOp, setKey, setObj, getObj, getObjList_set_ne _ _ hne]
  | del k => simp [applyOp, delKey, setObj, getObj, getObjList_set_ne _ _ hne]

theorem getObj_applyOps_ne {α : Type} (h : Heap α) (r r' : Nat) (hne : r ≠ r')
    (ops : List (CtxOp α)) : getObj (applyOps h r ops) r' = getObj h r' := by
  induction ops generalizing h with
  | nil => rfl
  | cons op rest ih =>
    rw [applyOps, ih, getObj_applyOp_ne _ _ _ hne]

/-- C9: each call of the render/include primitive derives a NEW context
object — allocated fresh, so distinct from the caller's (first conjunct) —
holding the caller's keys overridden by the path/content triple and overlaid
last with the caller-supplied extras (second conjunct); the allocation leaves
the caller's object untouched (third conjunct), and no sequence of top-level
key additions, reassignments or removals performed on the derived context
during the include's pipeline is ever written back onto the caller's object
(fourth conjunct). -/
theorem c9_render_new_context {α : Type} (h : Heap α) (parent : Nat)
    (pathVals extras : Obj α) (hp : parent < h.length) :
    (renderDerive h parent pathVals extras).2 ≠ parent ∧
    getObj (renderDerive h parent pathVals extras).1
        (renderDerive h parent pathVals extras).2
      = objAssign (objAssign (getObj h parent) pathVals) extras ∧
    getObj (renderDerive h parent pathVals extras).1 parent = getObj h parent ∧
    ∀ ops : List (CtxOp α),
      getObj (applyOps (renderDerive h parent pathVals extras).1
          (renderDerive h parent pathVals extras).2 ops) parent
        = getObj h parent := by
  refine ⟨by simp [renderDerive, alloc]; omega, ?_, ?_, ?_⟩
  · simp [renderDerive, alloc, getObj, getObjList_append_len]
  · simp only [renderDerive, alloc]
    exact getObjList_append_lt _ _ hp
  · intro ops
    have hne : (renderDerive h parent pathVals extras).2 ≠ parent := by
      simp [renderDerive, alloc]
      omega
    rw [getObj_applyOps_ne _ _ _ hne]
    simp only [renderDerive, alloc]
    exact getObjList_append_lt _ _ hp

/-- Witness for C9 on a one-object heap with a nonempty triple and extras. -/
theorem c9_render_new_context_witness :
    0 < ([[("inputPath".data, 1)]] : Heap Nat).length ∧
    ((renderDerive ([[("inputPath".data, 1)]] : Heap Nat) 0
        [("inputPath".data, 2)] [("title".data, 3)]).2 ≠ 0 ∧
      getObj (renderDerive ([[("inputPath".data, 1)]] : Heap Nat) 0
          [("inputPath".data, 2)] [("title".data, 3)]).1
          (renderDerive ([[("inputPath".data, 1)]] : Heap Nat) 0
            [("inputPath".data, 2)] [("title".data, 3)]).2
        = objAssign (objAssign (getObj ([[("inputPath".data, 1)]] : Heap Nat) 0)
            [("inputPath".data, 2)]) [("title".data, 3)] ∧
      getObj (renderDerive ([[("inputPath".data, 1)]] : Heap Nat) 0
          [("inputPath".data, 2)] [("title".data, 3)]).1 0
        = getObj ([[("inputPath".data, 1)]] : Heap Nat) 0 ∧
      ∀ ops : List (CtxOp Nat),
        getObj (applyOps (renderDerive ([[("inputPath".data, 1)]] : Heap Nat) 0
            [("inputPath".data, 2)] [("title".data, 3)]).1
            (renderDerive ([[("inputPath".data, 1)]] : Heap Nat) 0
              [("inputPath".data, 2)] [("title".data, 3)]).2 ops) 0
          = getObj ([[("inputPath".data, 1)]] : Heap Nat) 0) :=
  ⟨by decide,
    c9_render_new_context ([[("inputPath".data, 1)]] : Heap Nat) 0
      [("inputPath".data, 2)] [("title".data, 3)] (by decide)⟩

/-- C10: `meta()` merges every top-level key of the parsed metadata into the
current context by plain assignment — a metadata key named `inputPath`,
`outputPath`, `content`, `render`, `meta`, `metas`, `require` or `rss`
silently overwrites that reserved key or utility function on the context
object for the remainder of the render (first conjunct); keys absent from the
metadata are left as they were (second conjunct). -/
theorem c10_meta_plain_assign {α : Type} (h : Heap α) (r : Nat) (meta : Obj α)
    (hr : r < h.length) :
    (∀ k v, lookupKey meta k = some v →
      lookupKey (getObj (metaMerge h r meta) r) k = some v) ∧
    (∀ k, lookupKey meta k = none →
      lookupKey (getObj (metaMerge h r meta) r) k = lookupKey (getObj h r) k) := by
  have hget : getObj (metaMerge h r meta) r = objAssign (getObj h r) meta := by
    simp [metaMerge, setObj, getObj, getObjList_set_eq _ _ hr]
  constructor
  · intro k v hk
    rw [hget, lookupKey_objAssign, hk]
  · intro k hk
    rw [hget, lookupKey_objAssign, hk]

/-- Witness for C10: a metadata key named `inputPath` overwrites the reserved
`inputPath` key of the context. -/
theorem c10_meta_plain_assign_witness :
    0 < ([[("inputPath".data, 1), ("render".data, 2)]] : Heap Nat).length ∧
    lookupKey ([("inputPath".data, 9), ("title".data, 7)] : Obj Nat) "inputPath".data
      = some 9 ∧
    lookupKey (getObj (metaMerge ([[("inputPath".data, 1), ("render".data, 2)]] : Heap Nat)
        0 [("inputPath".data, 9), ("title".data, 7)]) 0) "inputPath".data = some 9 :=
  ⟨by decide, by decide,
    (c10_meta_plain_assign ([[("inputPath".data, 1), ("render".data, 2)]] : Heap Nat)
        0 [("inputPath".data, 9), ("title".data, 7)] (by decide)).1
      "inputPath".data 9 (by decide)⟩

end Blargh
